import Mathlib

/-!
Shallow embedding of `cmap` (src/cmap/cmap.go), a sharded string-to-string
hash table, together with proofs of its specification claims.

Modelling decisions:
* A Go string is a finite byte sequence; we model keys as `List (Fin 256)`
  (the hash reads keys byte by byte) and values as Lean `String`.
* A Go `map[string]string` is modelled as an association list
  (`List (Key × Value)`) with Go map semantics: assignment replaces the
  entry if the key is present and appends otherwise, lookup finds the
  entry, delete removes it.  `len` is the list length (Go maps never hold
  two entries with the same key; our update operation preserves that).
* `uint32` arithmetic is `Nat` with explicit `% 2 ^ 32` where overflow can
  occur; xor of two numbers below `2 ^ 32` stays below `2 ^ 32`.
* The table (Go: `HashTable`, a slice of `SHARD_COUNT` shards) is a total
  function `Fin SHARD_COUNT → ShardData`; the locks guard concurrent access
  only and have no sequential meaning, so they are not modelled.
* Mutating methods return the new table; methods that also return values
  return a pair.
-/

namespace Cmap

/-- A key is a Go string viewed as its byte sequence. -/
abbrev Key := List (Fin 256)

/-- A value is a Go string; only equality and the zero value "" matter. -/
abbrev Value := String

/-- Constant `SHARD_COUNT` is the number of the shards (cmap.go line 9). -/
def SHARD_COUNT : Nat := 32

/-- The `Data` field of one shard: a Go `map[string]string`. -/
abbrev ShardData := List (Key × Value)

/-- Type `HashTable` is the slice of `SHARD_COUNT` shards (the lock-free part of
each shard, i.e. its `Data` map). -/
abbrev HashTable := Fin SHARD_COUNT → ShardData

/-- Go map read `v, ok := m[k]`: the value of the entry with key `k`. -/
def mapGet (m : ShardData) (k : Key) : Option Value :=
  match m with
  | [] => none
  | (k', v') :: rest => if k' = k then some v' else mapGet rest k

/-- Go map assignment `m[k] = v`: replace the entry if present, else add. -/
def mapPut (m : ShardData) (k : Key) (v : Value) : ShardData :=
  match m with
  | [] => [(k, v)]
  | (k', v') :: rest =>
      if k' = k then (k, v) :: rest else (k', v') :: mapPut rest k v

/-- Go `delete(m, k)`: remove the entry with key `k` (no-op if absent). -/
def mapDel (m : ShardData) (k : Key) : ShardData :=
  match m with
  | [] => []
  | (k', v') :: rest => if k' = k then rest else (k', v') :: mapDel rest k

/-- Function `fnv32` (cmap.go lines 121-131): hash := 2166136261; for each byte
`hash *= 16777619; hash ^= b`, in `uint32` arithmetic. -/
def fnv32 (key : Key) : Nat :=
  key.foldl (fun hash b => hash * 16777619 % 2 ^ 32 ^^^ b.val) 2166136261

/-- The shard index computed by `getShard` (cmap.go line 117):
`uint(fnv32(key)) % uint(SHARD_COUNT)`. -/
def shardIdxNat (key : Key) : Nat := fnv32 key % SHARD_COUNT

/-- The shard index as a `Fin SHARD_COUNT` (it is always in range). -/
def shardIdx (key : Key) : Fin SHARD_COUNT :=
  ⟨shardIdxNat key, Nat.mod_lt _ (by norm_num [SHARD_COUNT])⟩

/-- Method `getShard` (cmap.go lines 116-118): the shard the key routes to. -/
def getShard (h : HashTable) (key : Key) : ShardData := h (shardIdx key)

/-- Constructor `New` (cmap.go lines 20-26): a table of `SHARD_COUNT` empty shards. -/
def New : HashTable := fun _ => []

/-- Method `Get` (cmap.go lines 42-51): `v, ok := shard.Data[key]; return v, ok`
(the zero value of `string` is `""`). -/
def Get (h : HashTable) (key : Key) : Value × Bool :=
  match mapGet (getShard h key) key with
  | some v => (v, true)
  | none => ("", false)

/-- Method `Put` (cmap.go lines 54-61): `shard.Data[key] = value`. -/
def Put (h : HashTable) (key : Key) (value : Value) : HashTable :=
  Function.update h (shardIdx key) (mapPut (h (shardIdx key)) key value)

/-- Method `PutIfNotExist` (cmap.go lines 64-76): insert only when the key is
absent from its shard; return `!ok`. -/
def PutIfNotExist (h : HashTable) (key : Key) (value : Value) :
    HashTable × Bool :=
  match mapGet (h (shardIdx key)) key with
  | some _ => (h, false)
  | none =>
      (Function.update h (shardIdx key)
        (mapPut (h (shardIdx key)) key value), true)

/-- Method `Del` (cmap.go lines 79-89): read `v, ok`, always `delete`, return
`v, ok` along with the updated table. -/
def Del (h : HashTable) (key : Key) : HashTable × Value × Bool :=
  (Function.update h (shardIdx key) (mapDel (h (shardIdx key)) key),
   match mapGet (h (shardIdx key)) key with
   | some v => (v, true)
   | none => ("", false))

/-- Method `Has` (cmap.go lines 92-100): `_, ok := shard.Data[key]; return ok`. -/
def Has (h : HashTable) (key : Key) : Bool :=
  (mapGet (getShard h key) key).isSome

/-- Method `Len` (cmap.go lines 103-113): the sum over all shards of the length of
its map. -/
def Len (h : HashTable) : Nat :=
  ∑ i : Fin SHARD_COUNT, (h i).length

/-- Constructor `From` (cmap.go lines 29-39): start from `New` and do one map
assignment per entry of the input map, routed through `getShard`.  The Go
input is a map; we take one enumeration of its entries as a list. -/
def From (data : List (Key × Value)) : HashTable :=
  data.foldl (fun ht kv =>
    Function.update ht (shardIdx kv.1)
      (mapPut (ht (shardIdx kv.1)) kv.1 kv.2)) New

/-! ### Lemmas about the Go map model -/

theorem mapGet_mapPut_self (m : ShardData) (k : Key) (v : Value) :
    mapGet (mapPut m k v) k = some v := by
  induction m with
  | nil => simp [mapPut, mapGet]
  | cons hd tl ih =>
      obtain ⟨k', v'⟩ := hd
      by_cases hk : k' = k <;> simp [mapPut, mapGet, hk, ih]

theorem mapGet_mapPut_ne (m : ShardData) {k k' : Key} (v : Value)
    (hne : k' ≠ k) : mapGet (mapPut m k v) k' = mapGet m k' := by
  induction m with
  | nil => simp [mapPut, mapGet, Ne.symm hne]
  | cons hd tl ih =>
      obtain ⟨k'', v''⟩ := hd
      by_cases hk : k'' = k
      · subst hk
        simp [mapPut, mapGet, Ne.symm hne]
      · by_cases hk' : k'' = k' <;> simp [mapPut, mapGet, hk, hk', hne, ih]

theorem mapPut_mapPut_self (m : ShardData) (k : Key) (v : Value) :
    mapPut (mapPut m k v) k v = mapPut m k v := by
  induction m with
  | nil => simp [mapPut]
  | cons hd tl ih =>
      obtain ⟨k', v'⟩ := hd
      by_cases hk : k' = k <;> simp [mapPut, hk, ih]

theorem mapGet_eq_none_iff (m : ShardData) (k : Key) :
    mapGet m k = none ↔ k ∉ m.map Prod.fst := by
  induction m with
  | nil => simp [mapGet]
  | cons hd tl ih =>
      obtain ⟨k', v'⟩ := hd
      by_cases hk : k' = k
      · subst hk
        simp [mapGet]
      · simp [mapGet, hk, ih, Ne.symm hk]

theorem keys_mapPut (m : ShardData) (k : Key) (v : Value) :
    (mapPut m k v).map Prod.fst =
      if k ∈ m.map Prod.fst then m.map Prod.fst else m.map Prod.fst ++ [k] := by
  induction m with
  | nil => simp [mapPut]
  | cons hd tl ih =>
      obtain ⟨k', v'⟩ := hd
      by_cases hk : k' = k
      · subst hk
        simp [mapPut]
      · by_cases hmem : k ∈ tl.map Prod.fst <;>
          simp [mapPut, hk, Ne.symm hk, hmem, ih]

theorem length_mapPut (m : ShardData) (k : Key) (v : Value) :
    (mapPut m k v).length =
      if k ∈ m.map Prod.fst then m.length else m.length + 1 := by
  have h1 := congrArg List.length (keys_mapPut m k v)
  by_cases hmem : k ∈ m.map Prod.fst <;>
    simpa [hmem] using h1

theorem mapDel_sublist (m : ShardData) (k : Key) : (mapDel m k).Sublist m := by
  induction m with
  | nil => simp [mapDel]
  | cons hd tl ih =>
      obtain ⟨k', v'⟩ := hd
      by_cases hk : k' = k
      · subst hk
        simp only [mapDel, if_pos]
        exact List.Sublist.cons (k', v') (List.Sublist.refl tl)
      · simpa [mapDel, hk] using List.Sublist.cons₂ (k', v') ih

theorem mapDel_of_absent (m : ShardData) (k : Key)
    (h : mapGet m k = none) : mapDel m k = m := by
  induction m with
  | nil => simp [mapDel]
  | cons hd tl ih =>
      obtain ⟨k', v'⟩ := hd
      by_cases hk : k' = k
      · simp [mapGet, hk] at h
      · simp [mapGet, hk] at h
        simp [mapDel, hk, ih h]

theorem mapGet_mapDel_self (m : ShardData) (k : Key)
    (hwf : (m.map Prod.fst).Nodup) : mapGet (mapDel m k) k = none := by
  induction m with
  | nil => simp [mapDel, mapGet]
  | cons hd tl ih =>
      obtain ⟨k', v'⟩ := hd
      simp only [List.map_cons, List.nodup_cons] at hwf
      by_cases hk : k' = k
      · subst hk
        simpa [mapDel, mapGet_eq_none_iff] using hwf.1
      · simp [mapDel, mapGet, hk, ih hwf.2]

theorem keys_mapPut_nodup (m : ShardData) (k : Key) (v : Value)
    (hwf : (m.map Prod.fst).Nodup) : ((mapPut m k v).map Prod.fst).Nodup := by
  rw [keys_mapPut]
  by_cases hmem : k ∈ m.map Prod.fst
  · simpa [hmem] using hwf
  · simp [hmem, List.nodup_append, hwf]

theorem keys_mapDel_nodup (m : ShardData) (k : Key)
    (hwf : (m.map Prod.fst).Nodup) : ((mapDel m k).map Prod.fst).Nodup :=
  hwf.sublist (List.Sublist.map Prod.fst (mapDel_sublist m k))

/-! ### Lemmas about the sharded table -/

theorem getShard_Put_self (h : HashTable) (k : Key) (v : Value) :
    getShard (Put h k v) k = mapPut (h (shardIdx k)) k v := by
  simp [getShard, Put, Function.update_same]

theorem Get_Put_self (h : HashTable) (k : Key) (v : Value) :
    Get (Put h k v) k = (v, true) := by
  simp [Get, getShard_Put_self, mapGet_mapPut_self]

theorem Get_Put_ne (h : HashTable) {k k' : Key} (v : Value) (hne : k' ≠ k) :
    Get (Put h k v) k' = Get h k' := by
  unfold Get getShard Put
  by_cases hs : shardIdx k' = shardIdx k
  · rw [hs, Function.update_same, mapGet_mapPut_ne _ v hne]
  · rw [Function.update_noteq hs]

theorem Has_Put_ne (h : HashTable) {k k' : Key} (v : Value) (hne : k' ≠ k) :
    Has (Put h k v) k' = Has h k' := by
  unfold Has getShard Put
  by_cases hs : shardIdx k' = shardIdx k
  · rw [hs, Function.update_same, mapGet_mapPut_ne _ v hne]
  · rw [Function.update_noteq hs]

theorem Has_eq_false_iff (h : HashTable) (k : Key) :
    Has h k = false ↔ mapGet (h (shardIdx k)) k = none := by
  unfold Has getShard
  cases mapGet (h (shardIdx k)) k <;> simp

theorem sum_update_fin (f : Fin SHARD_COUNT → Nat) (i : Fin SHARD_COUNT)
    (b : Nat) :
    (∑ j : Fin SHARD_COUNT, Function.update f i b j) + f i =
      (∑ j : Fin SHARD_COUNT, f j) + b := by
  rw [Finset.sum_update_of_mem (Finset.mem_univ i),
    Finset.sdiff_singleton_eq_erase,
    ← Finset.add_sum_erase Finset.univ f (Finset.mem_univ i)]
  omega

theorem Len_update (h : HashTable) (i : Fin SHARD_COUNT) (m : ShardData) :
    Len (Function.update h i m) + (h i).length = Len h + m.length := by
  have e1 : Len (Function.update h i m) =
      ∑ j : Fin SHARD_COUNT, Function.update (fun j => (h j).length) i
        m.length j :=
    Finset.sum_congr rfl fun j _ =>
      Function.apply_update (fun _ s => s.length) h i m j
  rw [e1]
  exact sum_update_fin (fun j => (h j).length) i m.length

theorem Len_Put_absent (h : HashTable) (k : Key) (v : Value)
    (habs : Has h k = false) : Len (Put h k v) = Len h + 1 := by
  have hnone : mapGet (h (shardIdx k)) k = none := (Has_eq_false_iff h k).1 habs
  have hmem : k ∉ (h (shardIdx k)).map Prod.fst :=
    (mapGet_eq_none_iff _ k).1 hnone
  have hlen := Len_update h (shardIdx k) (mapPut (h (shardIdx k)) k v)
  rw [length_mapPut, if_neg hmem] at hlen
  unfold Put
  omega

/-! ### Lemmas about building a table by repeated `Put` (`From`) -/

theorem From_eq_foldl (data : List (Key × Value)) :
    From data = data.foldl (fun ht kv => Put ht kv.1 kv.2) New := rfl

theorem Get_foldl_of_not_mem (data : List (Key × Value)) (h : HashTable)
    (k : Key) (hk : k ∉ data.map Prod.fst) :
    Get (data.foldl (fun ht kv => Put ht kv.1 kv.2) h) k = Get h k := by
  induction data generalizing h with
  | nil => rfl
  | cons hd tl ih =>
      simp only [List.map_cons, List.mem_cons] at hk
      push_neg at hk
      simp only [List.foldl_cons]
      rw [ih _ hk.2, Get_Put_ne _ _ hk.1]

theorem Get_foldl_mem (data : List (Key × Value)) (h : HashTable)
    (k : Key) (v : Value) (hnd : (data.map Prod.fst).Nodup)
    (hmem : (k, v) ∈ data) :
    Get (data.foldl (fun ht kv => Put ht kv.1 kv.2) h) k = (v, true) := by
  induction data generalizing h with
  | nil => cases hmem
  | cons hd tl ih =>
      simp only [List.map_cons, List.nodup_cons] at hnd
      simp only [List.foldl_cons]
      rcases List.mem_cons.mp hmem with heq | hmem'
      · subst heq
        rw [Get_foldl_of_not_mem tl _ k (by simpa using hnd.1), Get_Put_self]
      · exact ih _ hnd.2 hmem'

theorem Len_foldl (data : List (Key × Value)) (h : HashTable)
    (hnd : (data.map Prod.fst).Nodup)
    (habs : ∀ kv ∈ data, Has h kv.1 = false) :
    Len (data.foldl (fun ht kv => Put ht kv.1 kv.2) h) =
      Len h + data.length := by
  induction data generalizing h with
  | nil => simp
  | cons hd tl ih =>
      simp only [List.map_cons, List.nodup_cons] at hnd
      have habs2 : ∀ kv ∈ tl, Has (Put h hd.1 hd.2) kv.1 = false := by
        intro kv hkv
        have hne : kv.1 ≠ hd.1 := by
          intro hcontra
          exact hnd.1 (hcontra ▸ List.mem_map_of_mem Prod.fst hkv)
        rw [Has_Put_ne _ _ hne]
        exact habs kv (List.mem_cons_of_mem hd hkv)
      simp only [List.foldl_cons, List.length_cons]
      rw [ih _ hnd.2 habs2,
        Len_Put_absent _ _ _ (habs hd (List.mem_cons_self hd tl))]
      omega

/-! ### Well-formedness and the partition invariant

A Go map never holds two entries with the same key; `TableWF` states that
the association list of each shard has pairwise-distinct keys.  `Partitioned`
states that every key stored in shard `i` actually routes to shard `i`.
`Reachable` describes the tables produced by the public API. -/

/-- The map of every shard has pairwise-distinct keys (inherent to Go maps). -/
def TableWF (h : HashTable) : Prop :=
  ∀ i, ((h i).map Prod.fst).Nodup

/-- Every key stored in shard `i` routes to shard `i`. -/
def Partitioned (h : HashTable) : Prop :=
  ∀ i k, k ∈ (h i).map Prod.fst → shardIdx k = i

/-- The tables reachable through the public constructors and mutators. -/
inductive Reachable : HashTable → Prop where
  | new : Reachable New
  | ofMap (data : List (Key × Value)) : Reachable (From data)
  | put {h : HashTable} (k : Key) (v : Value) :
      Reachable h → Reachable (Put h k v)
  | putIfNotExist {h : HashTable} (k : Key) (v : Value) :
      Reachable h → Reachable (PutIfNotExist h k v).1
  | del {h : HashTable} (k : Key) :
      Reachable h → Reachable (Del h k).1

theorem tableWF_New : TableWF New := fun _ => List.nodup_nil

theorem tableWF_update (h : HashTable) (i : Fin SHARD_COUNT) (m : ShardData)
    (hwf : TableWF h) (hm : (m.map Prod.fst).Nodup) :
    TableWF (Function.update h i m) := by
  intro j
  by_cases hj : j = i
  · subst hj
    rwa [Function.update_same]
  · rw [Function.update_noteq hj]
    exact hwf j

theorem tableWF_Put (h : HashTable) (k : Key) (v : Value)
    (hwf : TableWF h) : TableWF (Put h k v) :=
  tableWF_update h _ _ hwf (keys_mapPut_nodup _ k v (hwf _))

theorem tableWF_PutIfNotExist (h : HashTable) (k : Key) (v : Value)
    (hwf : TableWF h) : TableWF (PutIfNotExist h k v).1 := by
  unfold PutIfNotExist
  cases hget : mapGet (h (shardIdx k)) k
  · simpa using tableWF_update h _ _ hwf (keys_mapPut_nodup _ k v (hwf _))
  · simpa using hwf

theorem tableWF_Del (h : HashTable) (k : Key)
    (hwf : TableWF h) : TableWF (Del h k).1 :=
  tableWF_update h _ _ hwf (keys_mapDel_nodup _ k (hwf _))

theorem tableWF_foldl (data : List (Key × Value)) (h : HashTable)
    (hwf : TableWF h) :
    TableWF (data.foldl (fun ht kv => Put ht kv.1 kv.2) h) := by
  induction data generalizing h with
  | nil => exact hwf
  | cons hd tl ih => exact ih _ (tableWF_Put h hd.1 hd.2 hwf)

theorem tableWF_From (data : List (Key × Value)) : TableWF (From data) := by
  rw [From_eq_foldl]
  exact tableWF_foldl data New tableWF_New

theorem reachable_tableWF {h : HashTable} (hr : Reachable h) : TableWF h := by
  induction hr with
  | new => exact tableWF_New
  | ofMap data => exact tableWF_From data
  | put k v _ ih => exact tableWF_Put _ k v ih
  | putIfNotExist k v _ ih => exact tableWF_PutIfNotExist _ k v ih
  | del k _ ih => exact tableWF_Del _ k ih

theorem partitioned_New : Partitioned New := by
  intro i k hk
  simp [New] at hk

theorem partitioned_Put (h : HashTable) (k : Key) (v : Value)
    (hp : Partitioned h) : Partitioned (Put h k v) := by
  intro i k' hk'
  by_cases hi : i = shardIdx k
  · subst hi
    rw [Put, Function.update_same, keys_mapPut] at hk'
    by_cases hmem : k ∈ (h (shardIdx k)).map Prod.fst
    · rw [if_pos hmem] at hk'
      exact hp _ _ hk'
    · rw [if_neg hmem] at hk'
      rcases List.mem_append.mp hk' with h1 | h2
      · exact hp _ _ h1
      · rw [List.mem_singleton.mp h2]
  · rw [Put, Function.update_noteq hi] at hk'
    exact hp _ _ hk'

theorem partitioned_PutIfNotExist (h : HashTable) (k : Key) (v : Value)
    (hp : Partitioned h) : Partitioned (PutIfNotExist h k v).1 := by
  unfold PutIfNotExist
  cases hget : mapGet (h (shardIdx k)) k
  · simpa using partitioned_Put h k v hp
  · simpa using hp

theorem partitioned_Del (h : HashTable) (k : Key)
    (hp : Partitioned h) : Partitioned (Del h k).1 := by
  intro i k' hk'
  simp only [Del] at hk'
  by_cases hi : i = shardIdx k
  · subst hi
    rw [Function.update_same] at hk'
    exact hp _ _
      ((List.Sublist.map Prod.fst (mapDel_sublist _ k)).subset hk')
  · rw [Function.update_noteq hi] at hk'
    exact hp _ _ hk'

theorem partitioned_foldl (data : List (Key × Value)) (h : HashTable)
    (hp : Partitioned h) :
    Partitioned (data.foldl (fun ht kv => Put ht kv.1 kv.2) h) := by
  induction data generalizing h with
  | nil => exact hp
  | cons hd tl ih => exact ih _ (partitioned_Put h hd.1 hd.2 hp)

theorem partitioned_From (data : List (Key × Value)) :
    Partitioned (From data) := by
  rw [From_eq_foldl]
  exact partitioned_foldl data New partitioned_New

theorem reachable_partitioned {h : HashTable} (hr : Reachable h) :
    Partitioned h := by
  induction hr with
  | new => exact partitioned_New
  | ofMap data => exact partitioned_From data
  | put k v _ ih => exact partitioned_Put _ k v ih
  | putIfNotExist k v _ ih => exact partitioned_PutIfNotExist _ k v ih
  | del k _ ih => exact partitioned_Del _ k ih

/-! ### Remaining helper lemmas -/

theorem Has_Put_self (h : HashTable) (k : Key) (v : Value) :
    Has (Put h k v) k = true := by
  simp [Has, getShard_Put_self, mapGet_mapPut_self]

theorem PutIfNotExist_absent (h : HashTable) (k : Key) (v : Value)
    (habs : Has h k = false) : PutIfNotExist h k v = (Put h k v, true) := by
  have hnone := (Has_eq_false_iff h k).1 habs
  simp [PutIfNotExist, hnone, Put]

theorem PutIfNotExist_present (h : HashTable) (k : Key) (v : Value)
    (hpres : Has h k = true) : PutIfNotExist h k v = (h, false) := by
  obtain ⟨w, hw⟩ := Option.isSome_iff_exists.mp hpres
  simp [PutIfNotExist, show mapGet (h (shardIdx k)) k = some w from hw]

theorem Get_eq_some_iff (h : HashTable) (k : Key) (w : Value) :
    Get h k = (w, true) ↔ mapGet (h (shardIdx k)) k = some w := by
  unfold Get getShard
  cases hm : mapGet (h (shardIdx k)) k <;> simp

/-! ### The claims -/

/-- Claim C1: for every key `k`, value `v` and container state `h`, after
`Put(k, v)` a subsequent `Get(k)` returns `(v, true)`. -/
theorem claim_c1_put_then_get (h : HashTable) (k : Key) (v : Value) :
    Get (Put h k v) k = (v, true) :=
  Get_Put_self h k v

/-- Claim C2: starting from a container in which `k` is absent, the first
`PutIfNotExist(k, v1)` returns true and stores `v1`; a subsequent
`PutIfNotExist(k, v2)` with `v1 ≠ v2` returns false and the value stays
`v1`.  In general `PutIfNotExist` inserts exactly when the key is absent
(in which case it acts as `Put`) and returns true exactly then; when the
key is present it leaves the container unchanged. -/
theorem claim_c2_putIfNotExist (h : HashTable) (k : Key) (v1 v2 : Value)
    (habs : Has h k = false) (_hne : v1 ≠ v2) :
    (PutIfNotExist h k v1).2 = true ∧
    Get (PutIfNotExist h k v1).1 k = (v1, true) ∧
    (PutIfNotExist (PutIfNotExist h k v1).1 k v2).2 = false ∧
    Get (PutIfNotExist (PutIfNotExist h k v1).1 k v2).1 k = (v1, true) ∧
    (∀ (h' : HashTable) (k' : Key) (v' : Value),
      ((PutIfNotExist h' k' v').2 = true ↔ Has h' k' = false) ∧
      (Has h' k' = false → PutIfNotExist h' k' v' = (Put h' k' v', true)) ∧
      (Has h' k' = true → PutIfNotExist h' k' v' = (h', false))) := by
  have h1 := PutIfNotExist_absent h k v1 habs
  have hpres : Has (PutIfNotExist h k v1).1 k = true := by
    rw [h1]
    exact Has_Put_self h k v1
  have h2 := PutIfNotExist_present (PutIfNotExist h k v1).1 k v2 hpres
  refine ⟨by rw [h1], ?_, by rw [h2], ?_, ?_⟩
  · rw [h1]
    exact Get_Put_self h k v1
  · rw [h2, h1]
    exact Get_Put_self h k v1
  · intro h' k' v'
    refine ⟨?_, PutIfNotExist_absent h' k' v', PutIfNotExist_present h' k' v'⟩
    cases hcase : Has h' k'
    · simp [PutIfNotExist_absent h' k' v' hcase]
    · simp [PutIfNotExist_present h' k' v' hcase]

/-- Witness for claim C2 at a concrete input: on the empty table the key
`"h"` (byte 104) is absent and the two distinct values `"a"`, `"b"` behave
as claimed. -/
theorem claim_c2_putIfNotExist_witness :
    (PutIfNotExist New [104] "a").2 = true ∧
    Get (PutIfNotExist New [104] "a").1 [104] = ("a", true) ∧
    (PutIfNotExist (PutIfNotExist New [104] "a").1 [104] "b").2 = false ∧
    Get (PutIfNotExist (PutIfNotExist New [104] "a").1 [104] "b").1 [104] =
      ("a", true) ∧
    (∀ (h' : HashTable) (k' : Key) (v' : Value),
      ((PutIfNotExist h' k' v').2 = true ↔ Has h' k' = false) ∧
      (Has h' k' = false → PutIfNotExist h' k' v' = (Put h' k' v', true)) ∧
      (Has h' k' = true → PutIfNotExist h' k' v' = (h', false))) :=
  claim_c2_putIfNotExist New [104] "a" "b" (by decide) (by decide)

/-- Claim C6: on the empty container produced by `New`, `Get` returns
`("", false)` and `Has` returns false, for every key. -/
theorem claim_c6_empty_get_has (k : Key) :
    Get New k = ("", false) ∧ Has New k = false :=
  ⟨rfl, rfl⟩

/-- Claim C7: every operation is total for every key (the shard index is
always in range, so the slice access cannot fail), and absence of a key is
reported only through the boolean result: the found flags of `Get` and
`Del` and the inserted flag of `PutIfNotExist` are determined by `Has`. -/
theorem claim_c7_totality (h : HashTable) (k : Key) (v : Value) :
    shardIdxNat k < SHARD_COUNT ∧
    (Get h k).2 = Has h k ∧
    (Del h k).2.2 = Has h k ∧
    (PutIfNotExist h k v).2 = !Has h k := by
  refine ⟨Nat.mod_lt _ (by norm_num [SHARD_COUNT]), ?_, ?_, ?_⟩
  · unfold Get Has getShard
    cases mapGet (h (shardIdx k)) k <;> simp
  · unfold Del Has getShard
    cases mapGet (h (shardIdx k)) k <;> simp
  · unfold PutIfNotExist Has getShard
    cases mapGet (h (shardIdx k)) k <;> simp

/-- Claim C8: `Put` is idempotent — putting the same key and value twice
leaves the container in a state identical to putting once. -/
theorem claim_c8_put_idempotent (h : HashTable) (k : Key) (v : Value) :
    Put (Put h k v) k v = Put h k v := by
  unfold Put
  rw [Function.update_same, Function.update_idem, mapPut_mapPut_self]

/-- Claim C3: `Del` on a key stored with value `w` returns `(w, true)` and
afterwards `Has` is false; `Del` on an absent key returns `("", false)`
and leaves the container unchanged.  `TableWF` records that each shard
stores distinct keys, which holds of every Go map and of every table the
API can build (`reachable_tableWF`). -/
theorem claim_c3_del (h : HashTable) (k : Key) (w : Value)
    (hwf : TableWF h) :
    (Get h k = (w, true) →
      (Del h k).2 = (w, true) ∧ Has (Del h k).1 k = false) ∧
    (Has h k = false → Del h k = (h, ("", false))) := by
  constructor
  · intro hget
    have hsome := (Get_eq_some_iff h k w).1 hget
    constructor
    · simp [Del, hsome]
    · rw [Has_eq_false_iff]
      simp only [Del, Function.update_same]
      exact mapGet_mapDel_self _ k (hwf (shardIdx k))
  · intro habs
    have hnone := (Has_eq_false_iff h k).1 habs
    simp [Del, hnone, mapDel_of_absent _ _ hnone, Function.update_eq_self]

/-- Witness for claim C3 at concrete inputs: deleting the present key
`[104]` from a one-entry table returns its value and removes it; deleting
the absent key `[105]` from the empty table is a no-op returning
`("", false)`. -/
theorem claim_c3_del_witness :
    ((Del (Put New [104] "x") [104]).2 = ("x", true) ∧
      Has (Del (Put New [104] "x") [104]).1 [104] = false) ∧
    Del New [105] = (New, ("", false)) :=
  ⟨(claim_c3_del (Put New [104] "x") [104] "x"
      (by unfold TableWF; decide)).1 (by decide),
   (claim_c3_del New [105] "" (by unfold TableWF; decide)).2 (by decide)⟩

/-- Claim C4: `fnv32` starts from the offset basis 2166136261 and, for each
byte in order, multiplies by the prime 16777619 with 32-bit wraparound and
then xors the byte in; the result always fits in 32 bits, and the shard
index is the hash modulo `SHARD_COUNT`, hence always in `[0, 32)`. -/
theorem claim_c4_fnv32_router :
    fnv32 [] = 2166136261 ∧
    (∀ (key : Key) (b : Fin 256),
      fnv32 (key ++ [b]) = fnv32 key * 16777619 % 2 ^ 32 ^^^ b.val) ∧
    (∀ key : Key, fnv32 key < 2 ^ 32) ∧
    (∀ key : Key, shardIdxNat key = fnv32 key % SHARD_COUNT ∧
      shardIdxNat key < 32 ∧ (shardIdx key).val = shardIdxNat key) := by
  refine ⟨rfl, ?_, ?_, ?_⟩
  · intro key b
    simp [fnv32, List.foldl_append]
  · intro key
    have hgen : ∀ (l : Key) (acc : Nat), acc < 2 ^ 32 →
        l.foldl (fun hash b => hash * 16777619 % 2 ^ 32 ^^^ b.val) acc <
          2 ^ 32 := by
      intro l
      induction l with
      | nil => intro acc hacc; exact hacc
      | cons b tl ih =>
          intro acc _
          exact ih _ (Nat.xor_lt_two_pow
            (Nat.mod_lt _ (by norm_num)) (lt_trans b.isLt (by norm_num)))
    exact hgen key 2166136261 (by norm_num)
  · intro key
    refine ⟨rfl, ?_, rfl⟩
    have hm : fnv32 key % 32 < 32 := Nat.mod_lt _ (by norm_num)
    simpa [shardIdxNat, SHARD_COUNT] using hm

/-- Claim C5: `From` applied to a map with distinct keys yields a container
whose `Len` is the number of keys and on which `Get` returns the value
mapped to each key; and `Len` after inserting the same distinct keys by `Put`
into `New` (which is exactly how `From` is built) is the key count. -/
theorem claim_c5_from_len (data : List (Key × Value))
    (hnd : (data.map Prod.fst).Nodup) :
    Len (From data) = data.length ∧
    (∀ (k : Key) (v : Value), (k, v) ∈ data →
      Get (From data) k = (v, true)) ∧
    Len (data.foldl (fun ht kv => Put ht kv.1 kv.2) New) = data.length := by
  have habs : ∀ kv ∈ data, Has New kv.1 = false := fun kv _ => rfl
  have hlen : Len (data.foldl (fun ht kv => Put ht kv.1 kv.2) New) =
      data.length := by
    rw [Len_foldl data New hnd habs]
    simp [Len, New]
  refine ⟨by rw [From_eq_foldl]; exact hlen, ?_, hlen⟩
  intro k v hmem
  rw [From_eq_foldl]
  exact Get_foldl_mem data New k v hnd hmem

/-- Witness for claim C5 at a concrete input: a two-entry map with the
distinct keys `[104]` and `[105]`. -/
theorem claim_c5_from_len_witness :
    Len (From [([104], "a"), ([105], "b")]) = 2 ∧
    Get (From [([104], "a"), ([105], "b")]) [105] = ("b", true) :=
  ⟨(claim_c5_from_len [([104], "a"), ([105], "b")] (by decide)).1,
   (claim_c5_from_len [([104], "a"), ([105], "b")] (by decide)).2.1
     [105] "b" (by decide)⟩

/-- Claim C9: every keyed operation touches only the shard selected by the
key router — every other shard `j` is unchanged by `Put`, `PutIfNotExist`
and `Del` — and the results of the read-only operations `Get` and `Has`
depend only on that one shard (they return no modified table at all). -/
theorem claim_c9_frame (h : HashTable) (k : Key) (v : Value)
    (j : Fin SHARD_COUNT) (hj : j ≠ shardIdx k) :
    Put h k v j = h j ∧
    (PutIfNotExist h k v).1 j = h j ∧
    (Del h k).1 j = h j ∧
    (∀ h' : HashTable, h' (shardIdx k) = h (shardIdx k) →
      Get h' k = Get h k ∧ Has h' k = Has h k) := by
  refine ⟨?_, ?_, ?_, ?_⟩
  · simp [Put, Function.update_noteq hj]
  · unfold PutIfNotExist
    cases mapGet (h (shardIdx k)) k <;> simp [Function.update_noteq hj]
  · simp [Del, Function.update_noteq hj]
  · intro h' hsh
    unfold Get Has getShard
    rw [hsh]
    exact ⟨rfl, rfl⟩

/-- Witness for claim C9 at concrete inputs: key `[104]` routes to shard
23, so shard 0 is untouched by the mutators, and a table that agrees on
shard 23 (here: one that only differs on shard 22) gives the same `Get`
and `Has` answers for `[104]`. -/
theorem claim_c9_frame_witness :
    Put New [104] "x" ⟨0, by norm_num [SHARD_COUNT]⟩ =
      New ⟨0, by norm_num [SHARD_COUNT]⟩ ∧
    (PutIfNotExist New [104] "x").1 ⟨0, by norm_num [SHARD_COUNT]⟩ =
      New ⟨0, by norm_num [SHARD_COUNT]⟩ ∧
    (Del New [104]).1 ⟨0, by norm_num [SHARD_COUNT]⟩ =
      New ⟨0, by norm_num [SHARD_COUNT]⟩ ∧
    (Get (Put New [105] "y") [104] = Get New [104] ∧
      Has (Put New [105] "y") [104] = Has New [104]) := by
  have hc := claim_c9_frame New [104] "x" ⟨0, by norm_num [SHARD_COUNT]⟩
    (by decide)
  exact ⟨hc.1, hc.2.1, hc.2.2.1, hc.2.2.2 (Put New [105] "y") (by decide)⟩

/-- Claim C10: in every container reachable through the public API, a key
stored in shard `i` routes to shard `i`, and hence is stored in at most
one shard.  (That the container always consists of exactly `SHARD_COUNT`
shards is forced by the state type `Fin SHARD_COUNT → ShardData`.) -/
theorem claim_c10_partition (h : HashTable) (i : Fin SHARD_COUNT) (k : Key)
    (hr : Reachable h) (hk : k ∈ (h i).map Prod.fst) :
    shardIdx k = i ∧ ∀ j, k ∈ (h j).map Prod.fst → j = i := by
  have hp := reachable_partitioned hr
  refine ⟨hp i k hk, fun j hj => ?_⟩
  rw [← hp j k hj, hp i k hk]

/-- Witness for claim C10 at a concrete input: in the reachable table
`Put New [104] "x"` the key `[104]` sits in shard `shardIdx [104]` and in
no other shard. -/
theorem claim_c10_partition_witness :
    shardIdx [104] = shardIdx [104] ∧
    ∀ j, [104] ∈ ((Put New [104] "x") j).map Prod.fst →
      j = shardIdx [104] :=
  claim_c10_partition (Put New [104] "x") (shardIdx [104]) [104]
    (Reachable.put [104] "x" Reachable.new) (by decide)

end Cmap
